import Mathlib

/-!
# Verification of the `transaction_engine` repository

Shallow embedding of the Rust sources (`src/amount_type.rs`, `src/transactions.rs`,
`src/client_account.rs`, `src/accounts_base.rs`, `src/lib.rs`, `src/main.rs`).

Modelling conventions:
* `AmountType = i64` is modelled as `Int`; checked Rust arithmetic
  (`checked_add` / `checked_sub`) is modelled with explicit range tests against
  the signed 64-bit bounds, and unchecked Rust arithmetic (`-=`, `*`, `+`, which
  wraps in a release build) is modelled with `wrap64`, reduction into
  `[-2^63, 2^63)`.
* fallible Rust functions returning `Result` are modelled with `Option`/paired
  error components; a Rust panic (`unwrap` on an `Err`) is modelled as the
  distinguished outcome `Res.crash`, distinct from an error returned to the
  caller (`Res.fail`).
* the CSV carrier is abstracted to `RawRecord`, a row of four already-trimmed
  string fields in the column order `type, client, tx, amount`; the numeric
  `client`/`tx` fields are parsed as decimal digits with a range check,
  mirroring the carrier interface the engine consumes.
-/

namespace TransactionEngineModel

/-! ## Signed 64-bit arithmetic -/

def i64Min : Int := -(2 ^ 63)

def i64Max : Int := 2 ^ 63 - 1

/-- Maximum value of `i64` as a natural number, the overflow bound of
`str::parse::<i64>` on a string of decimal digits. -/
def i64MaxNat : Nat := 2 ^ 63 - 1

/-- Two's-complement wraparound of an integer into the `i64` range, the
behaviour of unchecked Rust arithmetic in a release build. -/
def wrap64 (x : Int) : Int := (x + 2 ^ 63) % 2 ^ 64 - 2 ^ 63

/-- Rust `i64::checked_add`. -/
def checkedAdd (a b : Int) : Option Int :=
  if i64Min ≤ a + b ∧ a + b ≤ i64Max then some (a + b) else none

/-- Rust `i64::checked_sub`. -/
def checkedSub (a b : Int) : Option Int :=
  if i64Min ≤ a - b ∧ a - b ≤ i64Max then some (a - b) else none

theorem wrap64_eq_of_range (x : Int) (h1 : i64Min ≤ x) (h2 : x ≤ i64Max) :
    wrap64 x = x := by
  unfold wrap64
  have hlo : (0 : Int) ≤ x + 2 ^ 63 := by simp [i64Min] at h1; omega
  have hhi : x + 2 ^ 63 < 2 ^ 64 := by simp [i64Max] at h2; omega
  rw [Int.emod_eq_of_lt hlo hhi]
  omega

theorem wrap64_range (x : Int) : i64Min ≤ wrap64 x ∧ wrap64 x ≤ i64Max := by
  unfold wrap64 i64Min i64Max
  have h2 : (0 : Int) < 2 ^ 64 := by norm_num
  have := Int.emod_nonneg (x + 2 ^ 63) (by norm_num : (2 ^ 64 : Int) ≠ 0)
  have := Int.emod_lt_of_pos (x + 2 ^ 63) h2
  omega

/-! ## `src/client_account.rs` -/

/-- Error type of `ClientAccount::deposit`. -/
inductive DepositErr | overflow
deriving DecidableEq, Repr

/-- Error type of `ClientAccount::dispute`. -/
inductive DisputeErr | overflow
deriving DecidableEq, Repr

/-- Error type of `ClientAccount::resolve`. -/
inductive ResolveErr | overflow
deriving DecidableEq, Repr

/-- `struct ClientAccount { available, held, locked }`. -/
structure ClientAccount where
  available : Int
  held : Int
  locked : Bool
deriving DecidableEq, Repr

/-- `impl Default for ClientAccount`. -/
def ClientAccount.default : ClientAccount := ⟨0, 0, false⟩

/-- `ClientAccount::total`: `self.available + self.held`, an unchecked `i64`
addition. -/
def ClientAccount.total (a : ClientAccount) : Int := wrap64 (a.available + a.held)

/-- `ClientAccount::deposit`: the post-state together with the optional
`DepositError`.  The Rust method mutates `self` and returns `Result<(), _>`;
on error the account is returned unchanged, as in the source. -/
def ClientAccount.deposit (a : ClientAccount) (amount : Int) :
    ClientAccount × Option DepositErr :=
  if a.locked then (a, none)
  else
    match checkedAdd a.available amount with
    | some newAvailable => ({ a with available := newAvailable }, none)
    | none => (a, some .overflow)

/-- `ClientAccount::withdraw`: drops the operation when locked or when the
available funds are insufficient; the subtraction itself is unchecked. -/
def ClientAccount.withdraw (a : ClientAccount) (amount : Int) : ClientAccount :=
  if ¬a.locked ∧ amount ≤ a.available then
    { a with available := wrap64 (a.available - amount) }
  else a

/-- `ClientAccount::dispute`: both checked operations are computed before any
field is written, so an overflow leaves the account unchanged. -/
def ClientAccount.dispute (a : ClientAccount) (amount : Int) :
    ClientAccount × Option DisputeErr :=
  if a.locked then (a, none)
  else
    match checkedSub a.available amount, checkedAdd a.held amount with
    | some newAvailable, some newHeld =>
        ({ a with available := newAvailable, held := newHeld }, none)
    | _, _ => (a, some .overflow)

/-- `ClientAccount::resolve`: both checked operations are computed before any
field is written, so an overflow leaves the account unchanged. -/
def ClientAccount.resolve (a : ClientAccount) (amount : Int) :
    ClientAccount × Option ResolveErr :=
  if a.locked then (a, none)
  else
    match checkedSub a.held amount, checkedAdd a.available amount with
    | some newHeld, some newAvailable =>
        ({ a with available := newAvailable, held := newHeld }, none)
    | _, _ => (a, some .overflow)

/-- `ClientAccount::chargeback`: unchecked (wrapping) subtraction from the held
funds, then the account is locked; a no-op when already locked. -/
def ClientAccount.chargeback (a : ClientAccount) (amount : Int) : ClientAccount :=
  if ¬a.locked then { a with held := wrap64 (a.held - amount), locked := true }
  else a

/-! ## Decimal digit strings -/

/-- Value of a decimal digit character. -/
def digitVal (c : Char) : Nat := c.toNat - 48

/-- Value of a string of decimal digit characters, the semantics of
`str::parse` on a digit string (leading zeros permitted). -/
def digitsToNat (ds : List Char) : Nat :=
  ds.foldl (fun acc c => 10 * acc + digitVal c) 0

/-- Decimal digit character for a value below ten. -/
def digitChar (n : Nat) : Char := Char.ofNat (48 + n)

/-- Fuel-driven decimal printer, most significant digit first. -/
def natToDigitsAux : Nat → Nat → List Char → List Char
  | 0, _, acc => acc
  | fuel + 1, n, acc =>
    if n < 10 then digitChar n :: acc
    else natToDigitsAux fuel (n / 10) (digitChar (n % 10) :: acc)

/-- Decimal digits of a natural number, the semantics of Rust integer
`Display`. -/
def natToDigits (n : Nat) : List Char := natToDigitsAux (n + 1) n []

/-- Decimal character rendering of an `i64` value, the semantics of a Rust
`format` of a signed integer. -/
def intToDecChars (i : Int) : List Char :=
  if i < 0 then '-' :: natToDigits i.natAbs else natToDigits i.toNat

/-! ## `src/amount_type.rs` and `src/transactions.rs`: amount parsing -/

/-- Right padding of the fractional capture with `'0'` up to the precision of
four digits, as built by the string concatenation in both deserializers. -/
def padRightZeros (ds : List Char) : List Char :=
  ds ++ List.replicate (4 - ds.length) '0'

/-- Capture decomposition of the anchored match of
`^(\-?)(\d+)(?:\.?)(\d{0,4})$` (the regex of `amount_serde::deserialize`):
an optional leading minus sign, then the maximal run of digits (the greedy
`\d+`), then either the end of the string, or a dot followed by at most four
digits running to the end.  `none` models a failed match.  `splitSign` consumes
the optional sign group `(\-?)`. -/
def splitSign (cs : List Char) : Bool × List Char :=
  match cs with
  | c :: t => if c = '-' then (true, t) else (false, c :: t)
  | [] => (false, [])

/-- Match of the remainder after the greedy `(\d+)` against `(?:\.?)(\d{0,4})$`:
either nothing is left (no dot, empty fractional capture), or a dot followed by
at most four digits running to the end; anything else fails the regex. -/
def fracPart (after : List Char) : Option (Option (List Char)) :=
  match after with
  | [] => some none
  | c :: t => if c = '.' ∧ t.all Char.isDigit ∧ t.length ≤ 4 then some (some t) else none

/-- Sign, integer and fractional captures of the amount regex. -/
def decomposeAmount (cs : List Char) : Option (Bool × List Char × Option (List Char)) :=
  let sp := splitSign cs
  let intDs := sp.2.takeWhile Char.isDigit
  let after := sp.2.dropWhile Char.isDigit
  if intDs.isEmpty then none
  else
    match fracPart after with
    | none => none
    | some fr => some (sp.1, intDs, fr)

/-- Capture decomposition of `^(\d+)(?:\.{0,1})(\d{0,4})$`, the regex of
`transactions::deserialize_amount`; same shape but with no sign group. -/
def decomposeTxAmount (cs : List Char) : Option (List Char × Option (List Char)) :=
  let intDs := cs.takeWhile Char.isDigit
  let after := cs.dropWhile Char.isDigit
  if intDs.isEmpty then none
  else
    match fracPart after with
    | none => none
    | some fr => some (intDs, fr)

/-- `amount_serde::deserialize`: the empty string parses to `0`; otherwise the
regex must match, the integer capture is parsed as `i64` (overflow is an
error returned through the deserializer), the fractional capture is padded to
four digits, and the sign is applied last.  The unchecked multiplication by
`10000` and the additions wrap. -/
def amountDeserialize (s : String) : Option Int :=
  if s.data.isEmpty then some 0
  else
    match decomposeAmount s.data with
    | none => none
    | some (neg, intDs, fr) =>
      let iv := digitsToNat intDs
      if iv > i64MaxNat then none
      else
        let base := wrap64 ((iv : Int) * 10000)
        let fracDs := fr.getD []
        let result :=
          if fracDs.isEmpty then base
          else wrap64 (base + (digitsToNat (padRightZeros fracDs) : Int))
        some (wrap64 ((if neg then -1 else 1) * result))

/-- Possible outcomes of a fallible computation that may also panic:
`fail` models an error value returned to the caller, `crash` models a Rust
panic (`unwrap` applied to an `Err`). -/
inductive Res (α : Type) where
  | ok (a : α)
  | fail
  | crash
deriving DecidableEq, Repr

/-- `transactions::deserialize_amount`, the parser used for the `amount`
column of input records.  Unlike `amount_serde::deserialize` it has no
empty-string case and no sign group, and its integer-capture parse is followed
by `.unwrap()`, so an `i64` overflow panics instead of returning the mapped
error. -/
def txDeserializeAmount (s : String) : Res Int :=
  match decomposeTxAmount s.data with
  | none => .fail
  | some (intDs, fr) =>
    let iv := digitsToNat intDs
    if iv > i64MaxNat then .crash
    else
      let base := wrap64 ((iv : Int) * 10000)
      let fracDs := fr.getD []
      .ok (if fracDs.isEmpty then base
           else wrap64 (base + (digitsToNat (padRightZeros fracDs) : Int)))

/-! ## `src/amount_type.rs`: amount formatting -/

/-- Left padding with `'0'` to a minimum width, the semantics of the Rust
format spec with fill `'0'` and right alignment. -/
def padLeftZeros (ds : List Char) (w : Nat) : List Char :=
  List.replicate (w - ds.length) '0' ++ ds

/-- Removal of at most `n` trailing `'0'` characters, the trimming loop of
`amount_serde::serialize`. -/
def trimTrailingZeros : List Char → Nat → List Char
  | l, 0 => l
  | l, n + 1 => if l.getLast? = some '0' then trimTrailingZeros l.dropLast n else l

/-- `amount_serde::serialize`: truncating division by the scale `10000`, the
remainder left-padded to four characters, then up to three trailing zeros
trimmed. -/
def amountFormat (a : Int) : String :=
  let q := Int.tdiv a 10000
  let r := a - q * 10000
  ⟨trimTrailingZeros (intToDecChars q ++ '.' :: padLeftZeros (intToDecChars r) 4) 3⟩

/-! ## `src/transactions.rs`: record parsing -/

/-- `enum TransactionType`. -/
inductive TxType where
  | deposit
  | withdrawal
  | dispute
  | resolve
  | chargeback
deriving DecidableEq, Repr

/-- `struct Transaction` with fields `type, client, tx, amount`. -/
structure Transaction where
  ttype : TxType
  client : Nat
  tx : Nat
  amount : Int
deriving DecidableEq, Repr

/-- A CSV data row of four already-trimmed fields, the carrier interface the
engine consumes. -/
structure RawRecord where
  rtype : String
  rclient : String
  rtx : String
  ramount : String
deriving DecidableEq, Repr

/-- Serde rename table of `TransactionType`: the five lowercase literals. -/
def parseTxType (s : String) : Option TxType :=
  if s = "deposit" then some .deposit
  else if s = "withdrawal" then some .withdrawal
  else if s = "dispute" then some .dispute
  else if s = "resolve" then some .resolve
  else if s = "chargeback" then some .chargeback
  else none

/-- Carrier-level parse of an unsigned numeric field (`client : u16`,
`tx : u32`): decimal digits with a range check. -/
def parseNatField (maxVal : Nat) (s : String) : Option Nat :=
  if s.data ≠ [] ∧ s.data.all Char.isDigit then
    let v := digitsToNat s.data
    if v ≤ maxVal then some v else none
  else none

/-- Deserialization of one `Transaction` record: each field in column order,
with the amount going through `transactions::deserialize_amount` (whose
overflow panic propagates as `crash`). -/
def parseTransaction (r : RawRecord) : Res Transaction :=
  match parseTxType r.rtype with
  | none => .fail
  | some t =>
    match parseNatField 65535 r.rclient with
    | none => .fail
    | some c =>
      match parseNatField 4294967295 r.rtx with
      | none => .fail
      | some tx =>
        match txDeserializeAmount r.ramount with
        | .fail => .fail
        | .crash => .crash
        | .ok a => .ok ⟨t, c, tx, a⟩

/-! ## `src/accounts_base.rs` -/

/-- `AccountsBase = HashMap<u16, ClientAccount>`, modelled as an association
list (its iteration order is unspecified in the source). -/
abbrev AccountsBase := List (Nat × ClientAccount)

/-- Map lookup. -/
def lookupAcc : AccountsBase → Nat → Option ClientAccount
  | [], _ => none
  | (k, v) :: rest, c => if k = c then some v else lookupAcc rest c

/-- In-place replacement of the account stored under an existing key. -/
def updateAcc : AccountsBase → Nat → ClientAccount → AccountsBase
  | [], _, _ => []
  | (k, v) :: rest, c, a => if k = c then (k, a) :: rest else (k, v) :: updateAcc rest c a

/-- `HashMap::entry(client).or_default()`: inserts the default account when the
client has none. -/
def entryOrDefault (m : AccountsBase) (c : Nat) : AccountsBase :=
  match lookupAcc m c with
  | some _ => m
  | none => (c, ClientAccount.default) :: m

/-- `struct AccountRecord`, an output row: the three amounts are serialized
through `amount_serde` as strings and `total` is materialized. -/
structure AccountRecord where
  client : Nat
  available : String
  held : String
  total : String
  locked : Bool
deriving DecidableEq, Repr

/-- `serialize_accounts_base`: one output record per stored account. -/
def serializeAccountsBase (m : AccountsBase) : List AccountRecord :=
  m.map fun p =>
    ⟨p.1, amountFormat p.2.available, amountFormat p.2.held,
      amountFormat p.2.total, p.2.locked⟩

/-! ## `src/lib.rs`: the engine -/

/-- Loop body of `TransactionEngine::find_transactions`: scan the records from
the start, re-parsing each; collect records matching `(client, tx)` with their
positions; stop after the record that brings the count to three or the record
at `endPos`, whichever comes first. -/
def findTxAux (client tx endPos : Nat) :
    List RawRecord → Nat → List (Transaction × Nat) → Res (List (Transaction × Nat))
  | [], _, acc => .ok acc
  | r :: rest, pos, acc =>
    match parseTransaction r with
    | .fail => .fail
    | .crash => .crash
    | .ok tr =>
      let acc2 := if tr.client = client ∧ tr.tx = tx then acc ++ [(tr, pos)] else acc
      if acc2.length = 3 ∨ pos = endPos then .ok acc2
      else findTxAux client tx endPos rest (pos + 1) acc2

/-- `TransactionEngine::find_transactions` over the whole record stream. -/
def findTransactions (all : List RawRecord) (client tx endPos : Nat) :
    Res (List (Transaction × Nat)) :=
  findTxAux client tx endPos all 0 []

/-- `TransactionEngine::deposit`: create the account on demand, then apply
`ClientAccount::deposit`; a `DepositError` is fatal. -/
def engineDeposit (accounts : AccountsBase) (c : Nat) (amount : Int) :
    Res AccountsBase :=
  let m := entryOrDefault accounts c
  match lookupAcc m c with
  | none => .ok m
  | some acc =>
    match acc.deposit amount with
    | (acc2, none) => .ok (updateAcc m c acc2)
    | (_, some _) => .fail

/-- `TransactionEngine::withdraw`: create the account on demand, then apply
`ClientAccount::withdraw` (which never fails). -/
def engineWithdraw (accounts : AccountsBase) (c : Nat) (amount : Int) :
    AccountsBase :=
  let m := entryOrDefault accounts c
  match lookupAcc m c with
  | none => m
  | some acc => updateAcc m c (acc.withdraw amount)

/-- `TransactionEngine::dispute_transaction`: look up the matching records; on
exactly two hits whose first is a deposit and whose second is this very
position, apply `ClientAccount::dispute` with the deposit's amount (if the
client has an account); otherwise drop silently. -/
def disputeStep (all : List RawRecord) (accounts : AccountsBase)
    (t : Transaction) (pos : Nat) : Res AccountsBase :=
  match findTransactions all t.client t.tx pos with
  | .fail => .fail
  | .crash => .crash
  | .ok l =>
    match l with
    | [(dep, _), (_, dpos)] =>
      if dep.ttype = TxType.deposit ∧ dpos = pos then
        match lookupAcc accounts t.client with
        | none => .ok accounts
        | some acc =>
          match acc.dispute dep.amount with
          | (acc2, none) => .ok (updateAcc accounts t.client acc2)
          | (_, some _) => .fail
      else .ok accounts
    | _ => .ok accounts

/-- `TransactionEngine::resolve_transaction`: three hits, deposit then dispute
then this very position, are required; then `ClientAccount::resolve` is
applied with the deposit's amount. -/
def resolveStep (all : List RawRecord) (accounts : AccountsBase)
    (t : Transaction) (pos : Nat) : Res AccountsBase :=
  match findTransactions all t.client t.tx pos with
  | .fail => .fail
  | .crash => .crash
  | .ok l =>
    match l with
    | [(dep, _), (disp, _), (_, rpos)] =>
      if dep.ttype = TxType.deposit ∧ disp.ttype = TxType.dispute ∧ rpos = pos then
        match lookupAcc accounts t.client with
        | none => .ok accounts
        | some acc =>
          match acc.resolve dep.amount with
          | (acc2, none) => .ok (updateAcc accounts t.client acc2)
          | (_, some _) => .fail
      else .ok accounts
    | _ => .ok accounts

/-- `TransactionEngine::chargeback_transaction`: same validation as resolve;
`ClientAccount::chargeback` never fails. -/
def chargebackStep (all : List RawRecord) (accounts : AccountsBase)
    (t : Transaction) (pos : Nat) : Res AccountsBase :=
  match findTransactions all t.client t.tx pos with
  | .fail => .fail
  | .crash => .crash
  | .ok l =>
    match l with
    | [(dep, _), (disp, _), (_, cpos)] =>
      if dep.ttype = TxType.deposit ∧ disp.ttype = TxType.dispute ∧ cpos = pos then
        match lookupAcc accounts t.client with
        | none => .ok accounts
        | some acc => .ok (updateAcc accounts t.client (acc.chargeback dep.amount))
      else .ok accounts
    | _ => .ok accounts

/-- Dispatch of one parsed record inside `TransactionEngine::process`. -/
def engineStep (all : List RawRecord) (accounts : AccountsBase)
    (t : Transaction) (pos : Nat) : Res AccountsBase :=
  match t.ttype with
  | .deposit => engineDeposit accounts t.client t.amount
  | .withdrawal => .ok (engineWithdraw accounts t.client t.amount)
  | .dispute => disputeStep all accounts t pos
  | .resolve => resolveStep all accounts t pos
  | .chargeback => chargebackStep all accounts t pos

/-- Record loop of `TransactionEngine::process`: deserialize each record in
stream order (a parse error or panic is fatal) and dispatch it; when the
stream is exhausted return the accounts. -/
def engineGo (all : List RawRecord) :
    List RawRecord → Nat → AccountsBase → Res AccountsBase
  | [], _, accounts => .ok accounts
  | r :: rest, pos, accounts =>
    match parseTransaction r with
    | .fail => .fail
    | .crash => .crash
    | .ok t =>
      match engineStep all accounts t pos with
      | .fail => .fail
      | .crash => .crash
      | .ok accounts2 => engineGo all rest (pos + 1) accounts2

/-- `TransactionEngine::process` on a record stream. -/
def processRaw (l : List RawRecord) : Res AccountsBase := engineGo l l 0 []

/-- `main`: process, then emit the account snapshots only on success. -/
def runMain (l : List RawRecord) : Option (List AccountRecord) :=
  match processRaw l with
  | .ok accounts => some (serializeAccountsBase accounts)
  | _ => none

end TransactionEngineModel

namespace TransactionEngineModel

/-! ## Claim theorems about `ClientAccount` -/

/-- C2: once `locked` is true, deposit, withdraw, dispute, resolve and
chargeback leave `available`, `held` and `locked` unchanged for every amount,
and the fallible operations return success. -/
theorem locked_account_frozen (a : ClientAccount) (amount : Int)
    (h : a.locked = true) :
    a.deposit amount = (a, none) ∧
    a.withdraw amount = a ∧
    a.dispute amount = (a, none) ∧
    a.resolve amount = (a, none) ∧
    a.chargeback amount = a := by
  refine ⟨?_, ?_, ?_, ?_, ?_⟩ <;>
    simp [ClientAccount.deposit, ClientAccount.withdraw, ClientAccount.dispute,
      ClientAccount.resolve, ClientAccount.chargeback, h]

/-- C2 witness: a concrete locked account is left untouched by every
operation. -/
theorem locked_account_frozen_witness :
    let a : ClientAccount := ⟨700, 55, true⟩
    a.deposit 3 = (a, none) ∧
    a.withdraw 3 = a ∧
    a.dispute 3 = (a, none) ∧
    a.resolve 3 = (a, none) ∧
    a.chargeback 3 = a :=
  locked_account_frozen ⟨700, 55, true⟩ 3 rfl

/-- Shape of a successful deposit on an unlocked account. -/
theorem deposit_ok_shape (a : ClientAccount) (x : Int)
    (hl : a.locked = false) (h : (a.deposit x).2 = none) :
    (a.deposit x).1 = ⟨a.available + x, a.held, false⟩ := by
  simp only [ClientAccount.deposit, hl, Bool.false_eq_true, if_false] at h ⊢
  by_cases hr : i64Min ≤ a.available + x ∧ a.available + x ≤ i64Max
  · simp only [checkedAdd, hr, if_true]
    cases a; simp_all
  · simp [checkedAdd, hr] at h

/-- Shape of a successful dispute on an unlocked account. -/
theorem dispute_ok_shape (a : ClientAccount) (x : Int)
    (hl : a.locked = false) (h : (a.dispute x).2 = none) :
    (a.dispute x).1 = ⟨a.available - x, a.held + x, false⟩ := by
  simp only [ClientAccount.dispute, hl, Bool.false_eq_true, if_false] at h ⊢
  by_cases h1 : i64Min ≤ a.available - x ∧ a.available - x ≤ i64Max
  · by_cases h2 : i64Min ≤ a.held + x ∧ a.held + x ≤ i64Max
    · simp only [checkedSub, checkedAdd, h1, h2, if_true]
      cases a; simp_all
    · simp only [checkedSub, checkedAdd] at h
      rw [if_pos h1, if_neg h2] at h
      simp at h
  · simp only [checkedSub, checkedAdd] at h
    rw [if_neg h1] at h
    simp at h

/-- Shape of a successful resolve on an unlocked account. -/
theorem resolve_ok_shape (a : ClientAccount) (x : Int)
    (hl : a.locked = false) (h : (a.resolve x).2 = none) :
    (a.resolve x).1 = ⟨a.available + x, a.held - x, false⟩ := by
  simp only [ClientAccount.resolve, hl, Bool.false_eq_true, if_false] at h ⊢
  by_cases h1 : i64Min ≤ a.held - x ∧ a.held - x ≤ i64Max
  · by_cases h2 : i64Min ≤ a.available + x ∧ a.available + x ≤ i64Max
    · simp only [checkedSub, checkedAdd, h1, h2, if_true]
      cases a; simp_all
    · simp only [checkedSub, checkedAdd] at h
      rw [if_pos h1, if_neg h2] at h
      simp at h
  · simp only [checkedSub, checkedAdd] at h
    rw [if_neg h1] at h
    simp at h

/-- C4: whenever `deposit`, `dispute` or `resolve` signals its overflow error,
the account (all of `available`, `held`, `locked`) is unchanged from before the
call. -/
theorem error_implies_unchanged (a : ClientAccount) (amount : Int) :
    ((a.deposit amount).2.isSome → (a.deposit amount).1 = a) ∧
    ((a.dispute amount).2.isSome → (a.dispute amount).1 = a) ∧
    ((a.resolve amount).2.isSome → (a.resolve amount).1 = a) := by
  refine ⟨?_, ?_, ?_⟩ <;> intro h <;> by_cases hl : a.locked
  · simp [ClientAccount.deposit, hl] at h
  · simp only [ClientAccount.deposit, hl, if_false] at h ⊢
    cases hca : checkedAdd a.available amount <;> simp [hca] at h ⊢
  · simp [ClientAccount.dispute, hl] at h
  · simp only [ClientAccount.dispute, hl, if_false] at h ⊢
    cases h1 : checkedSub a.available amount <;>
      cases h2 : checkedAdd a.held amount <;> simp [h1, h2] at h ⊢
  · simp [ClientAccount.resolve, hl] at h
  · simp only [ClientAccount.resolve, hl, if_false] at h ⊢
    cases h1 : checkedSub a.held amount <;>
      cases h2 : checkedAdd a.available amount <;> simp [h1, h2] at h ⊢

/-- C4 witness: an overflowing deposit on a concrete account leaves it
unchanged (and the error really occurs). -/
theorem error_implies_unchanged_witness :
    let a : ClientAccount := ⟨i64Max, 0, false⟩
    (a.deposit 1).2.isSome = true ∧ (a.deposit 1).1 = a := by
  refine ⟨by decide, (error_implies_unchanged ⟨i64Max, 0, false⟩ 1).1 (by decide)⟩

/-- C8 counterexample: the full Deposit → Dispute → Resolve lifecycle does
not have net effect zero on `total`; starting from the default account with
amount `10000`, the final total is `10000`, not the initial `0`. -/
theorem lifecycle_total_counterexample :
    (((ClientAccount.default.deposit 10000).1.dispute 10000).1.resolve 10000).1.total
      ≠ ClientAccount.default.total := by
  decide

/-- C8 amended: on an unlocked account, the successful
Deposit → Dispute → Resolve lifecycle restores the post-deposit state exactly:
the Dispute/Resolve pair has net effect zero, the available funds end at
`available + amount`, the held funds are unchanged, so the net effect on
`total` is that of the deposit alone, not zero. -/
theorem lifecycle_net_effect (a : ClientAccount) (amount : Int)
    (hl : a.locked = false)
    (h1 : (a.deposit amount).2 = none)
    (h2 : ((a.deposit amount).1.dispute amount).2 = none)
    (h3 : (((a.deposit amount).1.dispute amount).1.resolve amount).2 = none) :
    (((a.deposit amount).1.dispute amount).1.resolve amount).1 = (a.deposit amount).1 ∧
    (((a.deposit amount).1.dispute amount).1.resolve amount).1.total
      = (a.deposit amount).1.total ∧
    (((a.deposit amount).1.dispute amount).1.resolve amount).1.available
      = a.available + amount ∧
    (((a.deposit amount).1.dispute amount).1.resolve amount).1.held = a.held := by
  have e1 := deposit_ok_shape a amount hl h1
  rw [e1] at h2 h3 ⊢
  have e2 := dispute_ok_shape ⟨a.available + amount, a.held, false⟩ amount rfl h2
  dsimp only at e2
  rw [e2] at h3 ⊢
  have e3 := resolve_ok_shape
    ⟨a.available + amount - amount, a.held + amount, false⟩ amount rfl h3
  dsimp only at e3
  rw [e3]
  have hav : a.available + amount - amount = a.available := by ring
  have hh : a.held + amount - amount = a.held := by ring
  rw [hav, hh]
  exact ⟨rfl, rfl, rfl, rfl⟩

/-- C8 witness: a concrete lifecycle on account `(5, 7, unlocked)` with amount
`100` restores the post-deposit state `(105, 7)`. -/
theorem lifecycle_net_effect_witness :
    let a : ClientAccount := ⟨5, 7, false⟩
    (((a.deposit 100).1.dispute 100).1.resolve 100).1 = (a.deposit 100).1 ∧
    (((a.deposit 100).1.dispute 100).1.resolve 100).1.total = (a.deposit 100).1.total ∧
    (((a.deposit 100).1.dispute 100).1.resolve 100).1.available = 5 + 100 ∧
    (((a.deposit 100).1.dispute 100).1.resolve 100).1.held = 7 :=
  lifecycle_net_effect ⟨5, 7, false⟩ 100 rfl (by decide) (by decide) (by decide)

end TransactionEngineModel

namespace TransactionEngineModel

/-- C3: the record parser in `transactions.rs` rejects an empty amount field
with a parse error instead of parsing it to `0`; the sibling implementation
`amount_serde::deserialize` (and the repository's own
`basic_dispute_empty_amount` test) treats the empty string as `0`, so a
dispute record with an empty amount aborts processing. -/
theorem empty_amount_rejected :
    txDeserializeAmount "" = Res.fail ∧
    parseTransaction ⟨"dispute", "1", "1", ""⟩ = Res.fail ∧
    amountDeserialize "" = some 0 := by decide

/-- C6: an amount whose integer part overflows `i64` makes the record parser
panic (the `unwrap` after `map_err`) instead of returning the parse error to
the caller; `amount_serde::deserialize` returns the error as specified. -/
theorem overflow_amount_panics :
    txDeserializeAmount "99999999999999999999" = Res.crash ∧
    parseTransaction ⟨"deposit", "1", "1", "99999999999999999999"⟩ = Res.crash ∧
    amountDeserialize "99999999999999999999" = none := by decide

/-- C5 counterexample: formatting the representable amount `-5000` (that is,
`-0.5`) produces the malformed string `"0.-5"`, which fails to re-parse, so
format-then-parse does not yield back the integer. -/
theorem format_parse_counterexample :
    amountFormat (-5000) = "0.-5" ∧ amountDeserialize (amountFormat (-5000)) = none := by
  decide

end TransactionEngineModel

namespace TransactionEngineModel

/-- Input stream of the duplicate-dispute scenario exactly as written in the
spec: `deposit,1,1,10.0` then `dispute,1,1,` (empty amount) twice, then
`resolve,1,1,` (empty amount). -/
def dupDisputeStream : List RawRecord :=
  [⟨"deposit", "1", "1", "10.0"⟩, ⟨"dispute", "1", "1", ""⟩,
   ⟨"dispute", "1", "1", ""⟩, ⟨"resolve", "1", "1", ""⟩]

/-- The same stream with the amounts of the dispute-lifecycle rows written as
`0` so that every record parses. -/
def dupDisputeStreamZero : List RawRecord :=
  [⟨"deposit", "1", "1", "10.0"⟩, ⟨"dispute", "1", "1", "0"⟩,
   ⟨"dispute", "1", "1", "0"⟩, ⟨"resolve", "1", "1", "0"⟩]

/-- C1 counterexample: processing the stream as written aborts with a parse
error on the first dispute record (its empty amount field is rejected by the
record parser), so no snapshot — in particular not
`available=10.0, held=0.0` for client 1 — is emitted. -/
theorem dup_dispute_claim_false :
    processRaw dupDisputeStream = Res.fail ∧ runMain dupDisputeStream = none := by
  decide

/-- C1 amended: the literal stream fails to parse; with the dispute-lifecycle
amounts written as `0`, processing succeeds, the duplicate dispute is ignored,
but the resolve is dropped too (the duplicate dispute fills the third lookup
slot, so the position check fails), leaving client 1 with
`available=0.0, held=10.0` — not `available=10.0, held=0.0`. -/
theorem dup_dispute_resolve_dropped :
    processRaw dupDisputeStream = Res.fail ∧
    processRaw dupDisputeStreamZero = Res.ok [(1, ⟨0, 100000, false⟩)] := by
  decide

/-- C10: a withdrawal naming a client with no account creates that account in
default state even though the withdrawal itself is dropped for insufficient
funds, and a zero-balance snapshot for that client appears in the serialized
output. -/
theorem withdrawal_creates_zero_account (accounts : AccountsBase) (c : Nat) (a : Int)
    (habs : lookupAcc accounts c = none) (hpos : 0 < a) :
    lookupAcc (engineWithdraw accounts c a) c = some ClientAccount.default ∧
    (⟨c, amountFormat 0, amountFormat 0, amountFormat 0, false⟩ : AccountRecord)
      ∈ serializeAccountsBase (engineWithdraw accounts c a) ∧
    amountFormat 0 = "0.0" := by
  have hw : ClientAccount.default.withdraw a = ClientAccount.default := by
    unfold ClientAccount.withdraw
    rw [if_neg]
    intro h
    have := h.2
    simp only [ClientAccount.default] at this
    omega
  have hm : engineWithdraw accounts c a = (c, ClientAccount.default) :: accounts := by
    unfold engineWithdraw entryOrDefault
    rw [habs]
    simp only [lookupAcc, eq_self_iff_true, if_true]
    rw [hw]
    simp [updateAcc]
  rw [hm]
  refine ⟨by simp [lookupAcc], ?_, by decide⟩
  have htot : ClientAccount.default.total = (0 : Int) := by decide
  simp only [serializeAccountsBase, List.map_cons, htot]
  exact List.mem_cons_self _ _

/-- C10 witness: a concrete withdrawal of `1.0` for the unknown client `7`
creates the zero account and the zero output row. -/
theorem withdrawal_creates_zero_account_witness :
    lookupAcc (engineWithdraw [] 7 10000) 7 = some ClientAccount.default ∧
    (⟨7, amountFormat 0, amountFormat 0, amountFormat 0, false⟩ : AccountRecord)
      ∈ serializeAccountsBase (engineWithdraw [] 7 10000) ∧
    amountFormat 0 = "0.0" :=
  withdrawal_creates_zero_account [] 7 10000 rfl (by decide)

end TransactionEngineModel

namespace TransactionEngineModel

/-! ## Engine error-propagation lemmas (for the abort-on-first-error policy) -/

/-- Success predicate on an outcome. -/
def Res.isOk {α : Type} : Res α → Bool
  | .ok _ => true
  | _ => false

theorem findTxAux_append (client tx p : Nat) (m2 : List RawRecord) :
    ∀ (m : List RawRecord) (pos : Nat) (acc : List (Transaction × Nat)),
      pos ≤ p → p < pos + m.length →
      findTxAux client tx p (m ++ m2) pos acc = findTxAux client tx p m pos acc := by
  intro m
  induction m with
  | nil => intro pos acc h1 h2; simp at h2; omega
  | cons r m ih =>
    intro pos acc h1 h2
    simp only [List.cons_append, findTxAux]
    cases hp : parseTransaction r with
    | fail => rfl
    | crash => rfl
    | ok tr =>
      simp only []
      by_cases hstop :
          (if tr.client = client ∧ tr.tx = tx then acc ++ [(tr, pos)] else acc).length = 3
            ∨ pos = p
      · rw [if_pos hstop, if_pos hstop]
      · rw [if_neg hstop, if_neg hstop]
        have hne : pos ≠ p := fun hcontra => hstop (Or.inr hcontra)
        exact ih (pos + 1) _ (by omega) (by simp at h2 ⊢; omega)

theorem findTransactions_append (l l2 : List RawRecord) (client tx p : Nat)
    (h : p < l.length) :
    findTransactions (l ++ l2) client tx p = findTransactions l client tx p :=
  findTxAux_append client tx p l2 l 0 [] (Nat.zero_le p) (by omega)

theorem findTxAux_ok (client tx p : Nat) :
    ∀ (m : List RawRecord) (pos : Nat) (acc : List (Transaction × Nat)),
      pos ≤ p → p < pos + m.length →
      (∀ r ∈ m.take (p + 1 - pos), (parseTransaction r).isOk = true) →
      ∃ v, findTxAux client tx p m pos acc = Res.ok v := by
  intro m
  induction m with
  | nil => intro pos acc h1 h2 _; simp at h2; omega
  | cons r m ih =>
    intro pos acc h1 h2 hok
    have htake : (r :: m).take (p + 1 - pos) = r :: m.take (p - pos) := by
      have : p + 1 - pos = (p - pos) + 1 := by omega
      rw [this, List.take_succ_cons]
    have hr : (parseTransaction r).isOk = true := by
      apply hok; rw [htake]; exact List.mem_cons_self _ _
    cases hp : parseTransaction r with
    | fail => rw [hp] at hr; simp [Res.isOk] at hr
    | crash => rw [hp] at hr; simp [Res.isOk] at hr
    | ok tr =>
      simp only [findTxAux]
      rw [hp]
      simp only []
      by_cases hstop :
          (if tr.client = client ∧ tr.tx = tx then acc ++ [(tr, pos)] else acc).length = 3
            ∨ pos = p
      · rw [if_pos hstop]; exact ⟨_, rfl⟩
      · rw [if_neg hstop]
        have hne : pos ≠ p := fun hcontra => hstop (Or.inr hcontra)
        refine ih (pos + 1) _ (by omega) (by simp at h2 ⊢; omega) ?_
        intro r2 hr2
        apply hok
        rw [htake]
        have : p - pos = p + 1 - (pos + 1) := by omega
        rw [← this] at hr2
        exact List.mem_cons_of_mem _ hr2

theorem findTransactions_ok (all : List RawRecord) (client tx p : Nat)
    (h : p < all.length)
    (hok : ∀ r ∈ all.take (p + 1), (parseTransaction r).isOk = true) :
    ∃ v, findTransactions all client tx p = Res.ok v :=
  findTxAux_ok client tx p all 0 [] (Nat.zero_le p) (by omega) (by simpa using hok)

theorem engineStep_append (l l2 : List RawRecord) (accounts : AccountsBase)
    (t : Transaction) (pos : Nat) (h : pos < l.length) :
    engineStep (l ++ l2) accounts t pos = engineStep l accounts t pos := by
  cases ht : t.ttype <;>
    simp only [engineStep, ht, disputeStep, resolveStep, chargebackStep,
      findTransactions_append l l2 t.client t.tx pos h]

theorem engineStep_not_crash (all : List RawRecord) (accounts : AccountsBase)
    (t : Transaction) (pos : Nat) (hlt : pos < all.length)
    (hok : ∀ r ∈ all.take (pos + 1), (parseTransaction r).isOk = true) :
    engineStep all accounts t pos = Res.fail ∨
    ∃ a, engineStep all accounts t pos = Res.ok a := by
  obtain ⟨v, hv⟩ := findTransactions_ok all t.client t.tx pos hlt hok
  cases ht : t.ttype
  case deposit =>
    simp only [engineStep, ht, engineDeposit]
    cases lookupAcc (entryOrDefault accounts t.client) t.client with
    | none => exact Or.inr ⟨_, rfl⟩
    | some acc =>
      dsimp only
      rcases hdep : acc.deposit t.amount with ⟨acc2, herr⟩
      cases herr with
      | none => exact Or.inr ⟨_, rfl⟩
      | some e => exact Or.inl rfl
  case withdrawal => simp only [engineStep, ht]; exact Or.inr ⟨_, rfl⟩
  case dispute =>
    simp only [engineStep, ht, disputeStep, hv]
    match v with
    | [(dep, dp), (d2, dpos)] =>
      simp only []
      by_cases hcond : dep.ttype = TxType.deposit ∧ dpos = pos
      · rw [if_pos hcond]
        cases lookupAcc accounts t.client with
        | none => exact Or.inr ⟨_, rfl⟩
        | some acc =>
          dsimp only
          rcases hd : acc.dispute dep.amount with ⟨acc2, herr⟩
          cases herr with
          | none => exact Or.inr ⟨_, rfl⟩
          | some e => exact Or.inl rfl
      · rw [if_neg hcond]; exact Or.inr ⟨_, rfl⟩
    | [] => exact Or.inr ⟨_, rfl⟩
    | [x] => exact Or.inr ⟨_, rfl⟩
    | x :: y :: z :: rest => exact Or.inr ⟨_, rfl⟩
  case resolve =>
    simp only [engineStep, ht, resolveStep, hv]
    match v with
    | [(dep, dp), (disp, d2p), (d3, rpos)] =>
      simp only []
      by_cases hcond : dep.ttype = TxType.deposit ∧ disp.ttype = TxType.dispute ∧ rpos = pos
      · rw [if_pos hcond]
        cases lookupAcc accounts t.client with
        | none => exact Or.inr ⟨_, rfl⟩
        | some acc =>
          dsimp only
          rcases hd : acc.resolve dep.amount with ⟨acc2, herr⟩
          cases herr with
          | none => exact Or.inr ⟨_, rfl⟩
          | some e => exact Or.inl rfl
      · rw [if_neg hcond]; exact Or.inr ⟨_, rfl⟩
    | [] => exact Or.inr ⟨_, rfl⟩
    | [x] => exact Or.inr ⟨_, rfl⟩
    | [x, y] => exact Or.inr ⟨_, rfl⟩
    | x :: y :: z :: w :: rest => exact Or.inr ⟨_, rfl⟩
  case chargeback =>
    simp only [engineStep, ht, chargebackStep, hv]
    match v with
    | [(dep, dp), (disp, d2p), (d3, cpos)] =>
      simp only []
      by_cases hcond : dep.ttype = TxType.deposit ∧ disp.ttype = TxType.dispute ∧ cpos = pos
      · rw [if_pos hcond]
        cases lookupAcc accounts t.client with
        | none => exact Or.inr ⟨_, rfl⟩
        | some acc => exact Or.inr ⟨_, rfl⟩
      · rw [if_neg hcond]; exact Or.inr ⟨_, rfl⟩
    | [] => exact Or.inr ⟨_, rfl⟩
    | [x] => exact Or.inr ⟨_, rfl⟩
    | [x, y] => exact Or.inr ⟨_, rfl⟩
    | x :: y :: z :: w :: rest => exact Or.inr ⟨_, rfl⟩

end TransactionEngineModel

namespace TransactionEngineModel

theorem engineGo_append (l l2 : List RawRecord) :
    ∀ (rest : List RawRecord) (pos : Nat) (acc : AccountsBase),
      pos + rest.length = l.length →
      engineGo (l ++ l2) (rest ++ l2) pos acc =
        match engineGo l rest pos acc with
        | .ok a => engineGo (l ++ l2) l2 l.length a
        | .fail => .fail
        | .crash => .crash := by
  intro rest
  induction rest with
  | nil =>
    intro pos acc h
    simp only [List.length_nil, Nat.add_zero] at h
    subst h
    rfl
  | cons r rest ih =>
    intro pos acc h
    simp only [List.length_cons] at h
    simp only [List.cons_append, engineGo]
    cases hp : parseTransaction r with
    | fail => rfl
    | crash => rfl
    | ok t =>
      dsimp only
      rw [engineStep_append l l2 acc t pos (by omega)]
      cases hs : engineStep l acc t pos with
      | fail => rfl
      | crash => rfl
      | ok acc2 => exact ih (pos + 1) acc2 (by omega)

theorem engineGo_fail_of_parse_fail (l : List RawRecord) :
    ∀ (rest done : List RawRecord) (acc : AccountsBase),
      l = done ++ rest →
      (∀ r ∈ done, (parseTransaction r).isOk = true) →
      (∃ r ∈ rest, parseTransaction r = Res.fail) →
      (∀ r ∈ rest, parseTransaction r ≠ Res.crash) →
      engineGo l rest done.length acc = Res.fail := by
  intro rest
  induction rest with
  | nil =>
    intro done acc _ _ hex _
    simp at hex
  | cons r rest ih =>
    intro done acc hsplit hdone hex hnocrash
    cases hp : parseTransaction r with
    | fail => simp only [engineGo, hp]
    | crash => exact absurd hp (hnocrash r (List.mem_cons_self _ _))
    | ok t =>
      simp only [engineGo, hp]
      have hlt : done.length < l.length := by
        rw [hsplit]; simp
      have htake : l.take (done.length + 1) = done ++ [r] := by
        rw [hsplit, List.take_append_eq_append_take]
        have h1 : done.take (done.length + 1) = done := List.take_of_length_le (by omega)
        have h2 : done.length + 1 - done.length = 1 := by omega
        rw [h1, h2]
        rfl
      have hok : ∀ r2 ∈ l.take (done.length + 1), (parseTransaction r2).isOk = true := by
        rw [htake]
        intro r2 hr2
        rcases List.mem_append.mp hr2 with hmem | hmem
        · exact hdone r2 hmem
        · rcases List.mem_singleton.mp hmem with rfl
          rw [hp]; rfl
      rcases engineStep_not_crash l acc t done.length hlt hok with hstep | ⟨a2, hstep⟩
      · rw [hstep]
      · rw [hstep]
        simp only []
        have hlen : (done ++ [r]).length = done.length + 1 := by simp
        rw [← hlen]
        apply ih (done ++ [r]) a2
        · rw [hsplit, List.append_assoc]; rfl
        · intro r2 hr2
          rcases List.mem_append.mp hr2 with hmem | hmem
          · exact hdone r2 hmem
          · rcases List.mem_singleton.mp hmem with rfl
            rw [hp]; rfl
        · rcases hex with ⟨rbad, hrbad, hfail⟩
          rcases List.mem_cons.mp hrbad with rfl | hmem
          · rw [hp] at hfail; cases hfail
          · exact ⟨rbad, hmem, hfail⟩
        · intro r2 hr2
          exact hnocrash r2 (List.mem_cons_of_mem _ hr2)

/-- C9: if some record of the stream fails to parse (and none panics first),
or processing already fails for any reason (such as a deposit / dispute /
resolve overflow), then `process` returns an error, appending further records
does not change that (no later record is applied), and `main` emits no
account snapshot at all. -/
theorem process_aborts_and_emits_nothing (l l2 : List RawRecord)
    (h : processRaw l = Res.fail ∨
         ((∃ r ∈ l, parseTransaction r = Res.fail) ∧
          (∀ r ∈ l, parseTransaction r ≠ Res.crash))) :
    processRaw l = Res.fail ∧
    processRaw (l ++ l2) = Res.fail ∧
    runMain (l ++ l2) = none := by
  have hfail : processRaw l = Res.fail := by
    rcases h with h | ⟨hex, hnocrash⟩
    · exact h
    · exact engineGo_fail_of_parse_fail l l [] [] rfl (by simp) hex hnocrash
  have happ : processRaw (l ++ l2) = Res.fail := by
    unfold processRaw
    rw [engineGo_append l l2 l 0 [] (by simp)]
    unfold processRaw at hfail
    rw [hfail]
  exact ⟨hfail, happ, by unfold runMain; rw [happ]⟩

/-- C9 witness: a concrete stream whose second record has a malformed amount
fails, still fails with a further record appended, and emits nothing. -/
theorem process_aborts_witness :
    processRaw [⟨"deposit", "1", "1", "1.0"⟩, ⟨"deposit", "1", "2", "x"⟩] = Res.fail ∧
    processRaw ([⟨"deposit", "1", "1", "1.0"⟩, ⟨"deposit", "1", "2", "x"⟩] ++
      [⟨"deposit", "1", "3", "2.0"⟩]) = Res.fail ∧
    runMain ([⟨"deposit", "1", "1", "1.0"⟩, ⟨"deposit", "1", "2", "x"⟩] ++
      [⟨"deposit", "1", "3", "2.0"⟩]) = none :=
  process_aborts_and_emits_nothing _ _
    (Or.inr ⟨⟨⟨"deposit", "1", "2", "x"⟩, by decide, by decide⟩, by decide⟩)

end TransactionEngineModel

namespace TransactionEngineModel

/-! ## Decimal digit-string lemmas -/

/-- Digit-string value folded from a given accumulator. -/
def digitsToNatFrom (a : Nat) (ds : List Char) : Nat :=
  ds.foldl (fun acc c => 10 * acc + digitVal c) a

theorem digitsToNat_eq_from (ds : List Char) : digitsToNat ds = digitsToNatFrom 0 ds := rfl

theorem digitsToNatFrom_append (a : Nat) (l1 l2 : List Char) :
    digitsToNatFrom a (l1 ++ l2) = digitsToNatFrom (digitsToNatFrom a l1) l2 :=
  List.foldl_append _ _ _ _

theorem digitVal_digitChar (d : Nat) (h : d < 10) : digitVal (digitChar d) = d := by
  interval_cases d <;> rfl

theorem isDigit_digitChar (d : Nat) (h : d < 10) : (digitChar d).isDigit = true := by
  interval_cases d <;> rfl

theorem natToDigitsAux_eval :
    ∀ (fuel n : Nat) (acc : List Char), n < fuel →
      digitsToNatFrom 0 (natToDigitsAux fuel n acc) = digitsToNatFrom n acc := by
  intro fuel
  induction fuel with
  | zero => intro n acc h; omega
  | succ fuel ih =>
    intro n acc h
    by_cases h10 : n < 10
    · simp only [natToDigitsAux, if_pos h10]
      show digitsToNatFrom (10 * 0 + digitVal (digitChar n)) acc = _
      rw [digitVal_digitChar n h10]
      norm_num
    · simp only [natToDigitsAux, if_neg h10]
      rw [ih (n / 10) _ (by omega)]
      show digitsToNatFrom (10 * (n / 10) + digitVal (digitChar (n % 10))) acc = _
      rw [digitVal_digitChar (n % 10) (Nat.mod_lt n (by omega)), Nat.div_add_mod]

theorem natToDigits_digitsToNat (n : Nat) : digitsToNat (natToDigits n) = n := by
  rw [digitsToNat_eq_from, natToDigits, natToDigitsAux_eval (n + 1) n [] (by omega)]
  rfl

theorem natToDigitsAux_all_digits :
    ∀ (fuel n : Nat) (acc : List Char), (∀ c ∈ acc, c.isDigit = true) →
      ∀ c ∈ natToDigitsAux fuel n acc, c.isDigit = true := by
  intro fuel
  induction fuel with
  | zero => intro n acc hacc; simpa [natToDigitsAux] using hacc
  | succ fuel ih =>
    intro n acc hacc c hc
    by_cases h10 : n < 10
    · simp only [natToDigitsAux, if_pos h10] at hc
      rcases List.mem_cons.mp hc with rfl | hmem
      · exact isDigit_digitChar n h10
      · exact hacc c hmem
    · simp only [natToDigitsAux, if_neg h10] at hc
      refine ih (n / 10) _ ?_ c hc
      intro c2 hc2
      rcases List.mem_cons.mp hc2 with rfl | hmem
      · exact isDigit_digitChar (n % 10) (Nat.mod_lt n (by omega))
      · exact hacc c2 hmem

theorem natToDigits_all_digits (n : Nat) : ∀ c ∈ natToDigits n, c.isDigit = true :=
  natToDigitsAux_all_digits (n + 1) n [] (by simp)

theorem natToDigitsAux_pre :
    ∀ (fuel n : Nat) (acc : List Char), ∃ pre, natToDigitsAux fuel n acc = pre ++ acc := by
  intro fuel
  induction fuel with
  | zero => intro n acc; exact ⟨[], rfl⟩
  | succ fuel ih =>
    intro n acc
    by_cases h10 : n < 10
    · exact ⟨[digitChar n], by simp [natToDigitsAux, if_pos h10]⟩
    · obtain ⟨pre, hpre⟩ := ih (n / 10) (digitChar (n % 10) :: acc)
      exact ⟨pre ++ [digitChar (n % 10)], by
        simp only [natToDigitsAux, if_neg h10, hpre, List.append_assoc, List.cons_append,
          List.nil_append]⟩

theorem natToDigits_ne_nil (n : Nat) : natToDigits n ≠ [] := by
  unfold natToDigits
  by_cases h10 : n < 10
  · simp [natToDigitsAux, if_pos h10]
  · simp only [natToDigitsAux, if_neg h10]
    obtain ⟨pre, hpre⟩ := natToDigitsAux_pre n (n / 10) [digitChar (n % 10)]
    rw [hpre]
    simp

theorem natToDigitsAux_length :
    ∀ (fuel k n : Nat) (acc : List Char), n < fuel → n < 10 ^ k → 1 ≤ k →
      (natToDigitsAux fuel n acc).length ≤ k + acc.length := by
  intro fuel
  induction fuel with
  | zero => intro k n acc h; omega
  | succ fuel ih =>
    intro k n acc h hpow hk
    by_cases h10 : n < 10
    · simp only [natToDigitsAux, if_pos h10, List.length_cons]
      omega
    · simp only [natToDigitsAux, if_neg h10]
      obtain ⟨k2, rfl⟩ : ∃ k2, k = k2 + 1 := ⟨k - 1, by omega⟩
      have hk2 : 1 ≤ k2 := by
        rcases Nat.eq_zero_or_pos k2 with rfl | h2
        · norm_num at hpow; omega
        · exact h2
      have hdiv : n / 10 < 10 ^ k2 := by
        rw [Nat.div_lt_iff_lt_mul (by norm_num)]
        rw [pow_succ] at hpow
        exact hpow
      have := ih k2 (n / 10) (digitChar (n % 10) :: acc) (by omega) hdiv hk2
      simp only [List.length_cons] at this
      omega

theorem natToDigits_length_le (n k : Nat) (h : n < 10 ^ k) (hk : 1 ≤ k) :
    (natToDigits n).length ≤ k := by
  have := natToDigitsAux_length (n + 1) k n [] (by omega) h hk
  simpa using this

theorem digitsToNatFrom_replicate_zero (k : Nat) :
    digitsToNatFrom 0 (List.replicate k '0') = 0 := by
  induction k with
  | zero => rfl
  | succ k ih =>
    rw [List.replicate_succ]
    show digitsToNatFrom (10 * 0 + digitVal '0') (List.replicate k '0') = 0
    simpa [digitVal] using ih

theorem digitsToNat_replicate_zero_append (k : Nat) (l : List Char) :
    digitsToNat (List.replicate k '0' ++ l) = digitsToNat l := by
  rw [digitsToNat_eq_from, digitsToNatFrom_append, digitsToNatFrom_replicate_zero]
  rfl

theorem digit_ne_minus (c : Char) (h : c.isDigit = true) : c ≠ '-' := by
  intro hc
  subst hc
  simp [Char.isDigit] at h

theorem digit_ne_dot (c : Char) (h : c.isDigit = true) : c ≠ '.' := by
  intro hc
  subst hc
  simp [Char.isDigit] at h

end TransactionEngineModel

namespace TransactionEngineModel

/-! ## Span and trimming lemmas -/

theorem span_all (p : Char → Bool) :
    ∀ l : List Char, (∀ c ∈ l, p c = true) →
      l.takeWhile p = l ∧ l.dropWhile p = [] := by
  intro l
  induction l with
  | nil => intro _; exact ⟨rfl, rfl⟩
  | cons c t ih =>
    intro h
    have hc : p c = true := h c (List.mem_cons_self _ _)
    have ht := ih fun c2 hc2 => h c2 (List.mem_cons_of_mem _ hc2)
    constructor
    · rw [List.takeWhile_cons, if_pos hc, ht.1]
    · rw [List.dropWhile_cons, if_pos hc, ht.2]

theorem span_append_stop (p : Char → Bool) (b : Char) (hb : p b = false) :
    ∀ (l1 l2 : List Char), (∀ c ∈ l1, p c = true) →
      (l1 ++ b :: l2).takeWhile p = l1 ∧ (l1 ++ b :: l2).dropWhile p = b :: l2 := by
  intro l1
  induction l1 with
  | nil =>
    intro l2 _
    constructor
    · rw [List.nil_append, List.takeWhile_cons, if_neg (by simp [hb])]
    · rw [List.nil_append, List.dropWhile_cons, if_neg (by simp [hb])]
  | cons c t ih =>
    intro l2 h
    have hc : p c = true := h c (List.mem_cons_self _ _)
    have ht := ih l2 fun c2 hc2 => h c2 (List.mem_cons_of_mem _ hc2)
    constructor
    · rw [List.cons_append, List.takeWhile_cons, if_pos hc, ht.1]
    · rw [List.cons_append, List.dropWhile_cons, if_pos hc, ht.2]

theorem mem_takeWhile_sat (p : Char → Bool) :
    ∀ l : List Char, ∀ c ∈ l.takeWhile p, p c = true := by
  intro l
  induction l with
  | nil => intro c hc; simp at hc
  | cons a t ih =>
    intro c hc
    rw [List.takeWhile_cons] at hc
    by_cases ha : p a = true
    · rw [if_pos ha] at hc
      rcases List.mem_cons.mp hc with rfl | hmem
      · exact ha
      · exact ih c hmem
    · rw [if_neg ha] at hc
      simp at hc

theorem trimTrailingZeros_length_le : ∀ (n : Nat) (l : List Char),
    (trimTrailingZeros l n).length ≤ l.length := by
  intro n
  induction n with
  | zero => intro l; exact le_rfl
  | succ n ih =>
    intro l
    simp only [trimTrailingZeros]
    split
    · have h1 := ih l.dropLast
      have h2 : l.dropLast.length = l.length - 1 := List.length_dropLast l
      omega
    · exact le_rfl

theorem trimTrailingZeros_removes_le : ∀ (n : Nat) (l : List Char),
    l.length - (trimTrailingZeros l n).length ≤ n := by
  intro n
  induction n with
  | zero => intro l; simp [trimTrailingZeros]
  | succ n ih =>
    intro l
    simp only [trimTrailingZeros]
    split
    next h =>
      have hne : l ≠ [] := by intro hl; subst hl; simp at h
      have hpos : 0 < l.length := List.length_pos.mpr hne
      have h1 := ih l.dropLast
      have h2 : l.dropLast.length = l.length - 1 := List.length_dropLast l
      omega
    next => omega

theorem trimTrailingZeros_restore : ∀ (n : Nat) (l : List Char),
    trimTrailingZeros l n ++
      List.replicate (l.length - (trimTrailingZeros l n).length) '0' = l := by
  intro n
  induction n with
  | zero => intro l; simp [trimTrailingZeros]
  | succ n ih =>
    intro l
    simp only [trimTrailingZeros]
    split
    next h =>
      have hne : l ≠ [] := by intro hl; subst hl; simp at h
      have hpos : 0 < l.length := List.length_pos.mpr hne
      have hlast : l.getLast hne = '0' := by
        have hg := List.getLast?_eq_getLast l hne
        rw [hg] at h
        exact Option.some_inj.mp h
      have hd : l.dropLast ++ ['0'] = l := by
        conv_rhs => rw [← List.dropLast_append_getLast hne]
        rw [hlast]
      have hlen : l.dropLast.length = l.length - 1 := List.length_dropLast l
      have htl := trimTrailingZeros_length_le n l.dropLast
      have ihd := ih l.dropLast
      have harith : l.length - (trimTrailingZeros l.dropLast n).length
          = (l.dropLast.length - (trimTrailingZeros l.dropLast n).length) + 1 := by omega
      rw [harith, List.replicate_succ', ← List.append_assoc, ihd, hd]
    next => simp

theorem trimTrailingZeros_subset (n : Nat) (l : List Char) :
    ∀ c ∈ trimTrailingZeros l n, c ∈ l := by
  intro c hc
  have hres := trimTrailingZeros_restore n l
  rw [← hres]
  exact List.mem_append.mpr (Or.inl hc)

theorem trimTrailingZeros_append : ∀ (n : Nat) (ys xs : List Char), n < ys.length →
    trimTrailingZeros (xs ++ ys) n = xs ++ trimTrailingZeros ys n := by
  intro n
  induction n with
  | zero => intro ys xs _; rfl
  | succ n ih =>
    intro ys xs h
    have hys : ys ≠ [] := by intro hy; subst hy; simp at h
    have hlast : (xs ++ ys).getLast? = ys.getLast? := by
      rw [List.getLast?_append]
      cases hy : ys.getLast? with
      | none => exact absurd (List.getLast?_eq_none_iff.mp hy) hys
      | some c => rfl
    simp only [trimTrailingZeros, hlast]
    split
    next hz =>
      have hdr : (xs ++ ys).dropLast = xs ++ ys.dropLast := by
        rw [List.dropLast_append_of_ne_nil]
        exact hys
      rw [hdr]
      have hlen : ys.dropLast.length = ys.length - 1 := List.length_dropLast ys
      exact ih ys.dropLast xs (by omega)
    next => rfl

theorem padRight_trim (l : List Char) (hl : l.length = 4) :
    padRightZeros (trimTrailingZeros l 3) = l := by
  unfold padRightZeros
  have hres := trimTrailingZeros_restore 3 l
  rw [hl] at hres
  exact hres

end TransactionEngineModel

namespace TransactionEngineModel

/-! ## Decomposition lemmas for the amount regex -/

/-- Characters contributed by the fractional capture: nothing when the dot is
absent, the dot followed by the captured digits otherwise. -/
def fracList : Option (List Char) → List Char
  | none => []
  | some f => '.' :: f

theorem splitSign_minus (t : List Char) : splitSign ('-' :: t) = (true, t) := by
  simp [splitSign]

theorem splitSign_other (c : Char) (t : List Char) (hc : c ≠ '-') :
    splitSign (c :: t) = (false, c :: t) := by
  simp [splitSign, hc]

theorem fracPart_inv (after : List Char) (fr : Option (List Char))
    (h : fracPart after = some fr) :
    after = fracList fr ∧
    ∀ f, fr = some f → (∀ c ∈ f, c.isDigit = true) ∧ f.length ≤ 4 := by
  cases after with
  | nil =>
    simp only [fracPart, Option.some_inj] at h
    subst h
    exact ⟨rfl, by intro f hf; cases hf⟩
  | cons c t =>
    simp only [fracPart] at h
    split at h
    next hcond =>
      obtain ⟨rfl, hall, hlen⟩ := hcond
      cases h
      refine ⟨rfl, ?_⟩
      intro f hf
      cases hf
      exact ⟨fun c2 hc2 => List.all_eq_true.mp hall c2 hc2, hlen⟩
    next => cases h

theorem fracPart_build (fr : Option (List Char))
    (hfr : ∀ f, fr = some f → (∀ c ∈ f, c.isDigit = true) ∧ f.length ≤ 4) :
    fracPart (fracList fr) = some fr := by
  cases fr with
  | none => rfl
  | some f =>
    obtain ⟨hall, hlen⟩ := hfr f rfl
    simp [fracList, fracPart, List.all_eq_true.mpr hall, hlen]

theorem decomposeAmount_build (neg : Bool) (d : List Char) (fr : Option (List Char))
    (hd : d ≠ []) (hdd : ∀ c ∈ d, c.isDigit = true)
    (hfr : ∀ f, fr = some f → (∀ c ∈ f, c.isDigit = true) ∧ f.length ≤ 4) :
    decomposeAmount ((if neg then ['-'] else []) ++ d ++ fracList fr)
      = some (neg, d, fr) := by
  obtain ⟨c, t, rfl⟩ : ∃ c t, d = c :: t := by
    cases d with
    | nil => exact absurd rfl hd
    | cons c t => exact ⟨c, t, rfl⟩
  have hc : c.isDigit = true := hdd c (List.mem_cons_self _ _)
  have hspan : ((c :: t) ++ fracList fr).takeWhile Char.isDigit = c :: t ∧
      ((c :: t) ++ fracList fr).dropWhile Char.isDigit = fracList fr := by
    cases fr with
    | none => simpa [fracList] using span_all Char.isDigit (c :: t) hdd
    | some f =>
      simpa [fracList] using span_append_stop Char.isDigit '.' rfl (c :: t) f hdd
  have hsp : splitSign ((if neg then ['-'] else []) ++ (c :: t) ++ fracList fr)
      = (neg, (c :: t) ++ fracList fr) := by
    cases neg with
    | true => simpa using splitSign_minus ((c :: t) ++ fracList fr)
    | false => simpa using splitSign_other c (t ++ fracList fr) (digit_ne_minus c hc)
  simp only [decomposeAmount, hsp]
  rw [hspan.1, hspan.2]
  simp only [List.isEmpty_cons, Bool.false_eq_true, if_false]
  rw [fracPart_build fr hfr]

theorem decomposeAmount_inv (cs : List Char) (neg : Bool) (d : List Char)
    (fr : Option (List Char)) (h : decomposeAmount cs = some (neg, d, fr)) :
    cs = (if neg then ['-'] else []) ++ d ++ fracList fr ∧
    d ≠ [] ∧ (∀ c ∈ d, c.isDigit = true) ∧
    (∀ f, fr = some f → (∀ c ∈ f, c.isDigit = true) ∧ f.length ≤ 4) := by
  have main : ∀ rest : List Char,
      rest.takeWhile Char.isDigit = d →
      fracPart (rest.dropWhile Char.isDigit) = some fr →
      rest = d ++ fracList fr ∧ (∀ c ∈ d, c.isDigit = true) ∧
      (∀ f, fr = some f → (∀ c ∈ f, c.isDigit = true) ∧ f.length ≤ 4) := by
    intro rest htw hfp
    obtain ⟨hfl, hcond⟩ := fracPart_inv _ _ hfp
    refine ⟨?_, ?_, hcond⟩
    · conv_lhs => rw [← List.takeWhile_append_dropWhile (p := Char.isDigit) (l := rest)]
      rw [htw, hfl]
    · intro c2 hc2
      rw [← htw] at hc2
      exact mem_takeWhile_sat Char.isDigit rest c2 hc2
  cases cs with
  | nil => simp [decomposeAmount, splitSign] at h
  | cons c t =>
    by_cases hc : c = '-'
    · subst hc
      simp only [decomposeAmount, splitSign_minus] at h
      split at h
      next => cases h
      next hem =>
        rcases hfp : fracPart (t.dropWhile Char.isDigit) with _ | fr2 <;> rw [hfp] at h
        · cases h
        · simp only [Option.some_inj, Prod.mk.injEq] at h
          obtain ⟨h1, h2, h3⟩ := h
          subst h3
          have hdne : d ≠ [] := by
            rw [← h2]
            intro hx
            rw [hx] at hem
            simp at hem
          obtain ⟨hrest, hdd, hcond⟩ := main t h2 hfp
          rw [← h1, hrest]
          exact ⟨by simp, hdne, hdd, hcond⟩
    · simp only [decomposeAmount, splitSign_other c t hc] at h
      split at h
      next => cases h
      next hem =>
        rcases hfp : fracPart ((c :: t).dropWhile Char.isDigit) with _ | fr2 <;> rw [hfp] at h
        · cases h
        · simp only [Option.some_inj, Prod.mk.injEq] at h
          obtain ⟨h1, h2, h3⟩ := h
          subst h3
          have hdne : d ≠ [] := by
            rw [← h2]
            intro hx
            rw [hx] at hem
            simp at hem
          obtain ⟨hrest, hdd, hcond⟩ := main (c :: t) h2 hfp
          rw [← h1, hrest]
          exact ⟨by simp, hdne, hdd, hcond⟩

end TransactionEngineModel

namespace TransactionEngineModel

/-! ## Evaluation of the amount parser on structured input -/

theorem string_eq_of_data (s : String) (l : List Char) (h : s.data = l) : s = ⟨l⟩ := by
  cases s
  exact congrArg String.mk h

theorem amountDeserialize_eval (neg : Bool) (d : List Char) (fr : Option (List Char))
    (hd : d ≠ []) (hdd : ∀ c ∈ d, c.isDigit = true)
    (hfr : ∀ f, fr = some f → (∀ c ∈ f, c.isDigit = true) ∧ f.length ≤ 4)
    (hiv : digitsToNat d ≤ i64MaxNat) :
    amountDeserialize ⟨(if neg then ['-'] else []) ++ d ++ fracList fr⟩
      = some (wrap64 ((if neg then -1 else 1) *
          (if (fr.getD []).isEmpty then wrap64 ((digitsToNat d : Int) * 10000)
           else wrap64 (wrap64 ((digitsToNat d : Int) * 10000) +
             (digitsToNat (padRightZeros (fr.getD [])) : Int))))) := by
  have hne : ((if neg then ['-'] else []) ++ d ++ fracList fr).isEmpty = false := by
    obtain ⟨c, t, rfl⟩ : ∃ c t, d = c :: t := by
      cases d with
      | nil => exact absurd rfl hd
      | cons c t => exact ⟨c, t, rfl⟩
    cases neg <;> simp
  simp only [amountDeserialize, hne, Bool.false_eq_true, if_false]
  rw [decomposeAmount_build neg d fr hd hdd hfr]
  dsimp only
  rw [if_neg (by omega : ¬ digitsToNat d > i64MaxNat)]

theorem amountDeserialize_range (s : String) (v : Int)
    (h : amountDeserialize s = some v) : i64Min ≤ v ∧ v ≤ i64Max := by
  unfold amountDeserialize at h
  split at h
  · simp only [Option.some_inj] at h
    subst h
    constructor <;> norm_num [i64Min, i64Max]
  · rcases hdc : decomposeAmount s.data with _ | ⟨neg, dd, fr⟩ <;> rw [hdc] at h
    · cases h
    · dsimp only at h
      split at h
      · cases h
      · simp only [Option.some_inj] at h
        subst h
        exact wrap64_range _

end TransactionEngineModel

namespace TransactionEngineModel

/-! ## Structure of formatted amounts -/

theorem padLeftZeros_length (l : List Char) (h : l.length ≤ 4) :
    (padLeftZeros l 4).length = 4 := by
  unfold padLeftZeros
  simp only [List.length_append, List.length_replicate]
  omega

theorem amountFormat_data (a : Int)
    (hlen : (intToDecChars (a - a.tdiv 10000 * 10000)).length ≤ 4) :
    (amountFormat a).data
      = intToDecChars (a.tdiv 10000) ++ '.' ::
        trimTrailingZeros (padLeftZeros (intToDecChars (a - a.tdiv 10000 * 10000)) 4) 3 := by
  show trimTrailingZeros (intToDecChars (a.tdiv 10000) ++ '.' ::
        padLeftZeros (intToDecChars (a - a.tdiv 10000 * 10000)) 4) 3 = _
  have hp4 := padLeftZeros_length _ hlen
  have hassoc : intToDecChars (a.tdiv 10000) ++ '.' ::
        padLeftZeros (intToDecChars (a - a.tdiv 10000 * 10000)) 4
      = (intToDecChars (a.tdiv 10000) ++ ['.']) ++
        padLeftZeros (intToDecChars (a - a.tdiv 10000 * 10000)) 4 := by
    simp
  rw [hassoc, trimTrailingZeros_append 3 _ _ (by omega)]
  simp

/-- The characters of the padded fractional field are all digits. -/
theorem padLeftZeros_digits (l : List Char) (hl : ∀ c ∈ l, c.isDigit = true) :
    ∀ c ∈ padLeftZeros l 4, c.isDigit = true := by
  intro c hc
  rcases List.mem_append.mp hc with hmem | hmem
  · have : c = '0' := List.eq_of_mem_replicate hmem
    subst this
    rfl
  · exact hl c hmem

/-! ## Format-then-parse roundtrip -/

theorem cast_i64MaxNat : (i64MaxNat : Int) = i64Max := by
  norm_num [i64MaxNat, i64Max]

theorem isEmpty_false_of_ne_nil (l : List Char) (h : l ≠ []) : l.isEmpty = false := by
  cases l with
  | nil => exact absurd rfl h
  | cons c t => rfl

theorem roundtrip_nonneg (a : Int) (h0 : 0 ≤ a) (h2 : a ≤ i64Max) :
    amountDeserialize (amountFormat a) = some a := by
  have hmax : a ≤ 9223372036854775807 := by simpa [i64Max] using h2
  have hq : a.tdiv 10000 = a / 10000 := by
    rw [Int.tdiv_eq_ediv]
    · simp [h0]
    · norm_num
  have hq0 : 0 ≤ a / 10000 := Int.ediv_nonneg h0 (by norm_num)
  have hrdef : a - a / 10000 * 10000 = a % 10000 := by
    rw [Int.emod_def]
    ring
  have hr0 : 0 ≤ a % 10000 := Int.emod_nonneg a (by norm_num)
  have hrlt : a % 10000 < 10000 := Int.emod_lt_of_pos a (by norm_num)
  have hqd : intToDecChars (a.tdiv 10000) = natToDigits (a / 10000).toNat := by
    rw [hq]
    unfold intToDecChars
    rw [if_neg (by omega)]
  have hrd : intToDecChars (a - a.tdiv 10000 * 10000) = natToDigits (a % 10000).toNat := by
    rw [hq, hrdef]
    unfold intToDecChars
    rw [if_neg (by omega)]
  have hrtlt : (a % 10000).toNat < 10 ^ 4 := by
    have h4 : (10 : Nat) ^ 4 = 10000 := by norm_num
    omega
  have hrlen : (intToDecChars (a - a.tdiv 10000 * 10000)).length ≤ 4 := by
    rw [hrd]
    exact natToDigits_length_le _ 4 hrtlt (by norm_num)
  have hdata := amountFormat_data a hrlen
  rw [hqd, hrd] at hdata
  have hp4 : (padLeftZeros (natToDigits (a % 10000).toNat) 4).length = 4 :=
    padLeftZeros_length _ (by rw [← hrd]; exact hrlen)
  have hstr : amountFormat a
      = ⟨(if false then ['-'] else []) ++ natToDigits (a / 10000).toNat ++
          fracList (some (trimTrailingZeros
            (padLeftZeros (natToDigits (a % 10000).toNat) 4) 3))⟩ := by
    apply string_eq_of_data
    rw [hdata]
    simp [fracList]
  rw [hstr]
  have htrdig : ∀ c ∈ trimTrailingZeros (padLeftZeros (natToDigits (a % 10000).toNat) 4) 3,
      c.isDigit = true := by
    intro c hc
    exact padLeftZeros_digits _ (natToDigits_all_digits _) c
      (trimTrailingZeros_subset 3 _ c hc)
  have htrlen : (trimTrailingZeros (padLeftZeros (natToDigits (a % 10000).toNat) 4) 3).length
      ≤ 4 := by
    have := trimTrailingZeros_length_le 3 (padLeftZeros (natToDigits (a % 10000).toNat) 4)
    omega
  have hivq : digitsToNat (natToDigits (a / 10000).toNat) ≤ i64MaxNat := by
    rw [natToDigits_digitsToNat, Int.toNat_le, cast_i64MaxNat]
    have : a / 10000 ≤ a := by omega
    omega
  rw [amountDeserialize_eval false _ _ (natToDigits_ne_nil _) (natToDigits_all_digits _)
        (by intro f hf; cases hf; exact ⟨htrdig, htrlen⟩) hivq]
  have htrne : (trimTrailingZeros (padLeftZeros (natToDigits (a % 10000).toNat) 4) 3).isEmpty
      = false := by
    apply isEmpty_false_of_ne_nil
    have hrem := trimTrailingZeros_removes_le 3 (padLeftZeros (natToDigits (a % 10000).toNat) 4)
    intro hnil
    rw [hnil] at hrem
    simp [hp4] at hrem
  simp only [Option.getD, htrne, Bool.false_eq_true, if_false]
  rw [padRight_trim _ hp4]
  have hfracval : digitsToNat (padLeftZeros (natToDigits (a % 10000).toNat) 4)
      = (a % 10000).toNat := by
    unfold padLeftZeros
    rw [digitsToNat_replicate_zero_append, natToDigits_digitsToNat]
  rw [hfracval, natToDigits_digitsToNat]
  have hcq : ((a / 10000).toNat : Int) = a / 10000 := Int.toNat_of_nonneg hq0
  have hcr : ((a % 10000).toNat : Int) = a % 10000 := Int.toNat_of_nonneg hr0
  rw [hcq, hcr]
  have hqmul : a / 10000 * 10000 = a - a % 10000 := by omega
  have hbase : wrap64 (a / 10000 * 10000) = a / 10000 * 10000 := by
    apply wrap64_eq_of_range <;> simp only [i64Min, i64Max] <;> omega
  rw [hbase]
  have hsum : a / 10000 * 10000 + a % 10000 = a := by omega
  rw [hsum]
  have hwa : wrap64 a = a := by
    apply wrap64_eq_of_range <;> simp only [i64Min, i64Max] <;> omega
  rw [hwa]
  have h1a : (1 : Int) * a = a := one_mul a
  rw [h1a, hwa]

end TransactionEngineModel

namespace TransactionEngineModel

theorem roundtrip_neg_multiple (a : Int) (h1 : i64Min ≤ a) (hneg : a < 0)
    (hm : a % 10000 = 0) :
    amountDeserialize (amountFormat a) = some a := by
  have hmin : -(9223372036854775808 : Int) ≤ a := by simpa [i64Min] using h1
  have hne_min : a ≠ -9223372036854775808 := by
    intro hx
    rw [hx] at hm
    norm_num at hm
  obtain ⟨k, hk⟩ := Int.dvd_of_emod_eq_zero hm
  have hkneg : k < 0 := by omega
  have hq : a.tdiv 10000 = k := by
    rw [hk]
    exact Int.mul_tdiv_cancel_left k (by norm_num)
  have hr : a - a.tdiv 10000 * 10000 = 0 := by
    rw [hq]
    omega
  have hqd : intToDecChars (a.tdiv 10000) = '-' :: natToDigits k.natAbs := by
    rw [hq]
    unfold intToDecChars
    rw [if_pos hkneg]
  have hrd : intToDecChars (a - a.tdiv 10000 * 10000) = ['0'] := by
    rw [hr]
    decide
  have hrlen : (intToDecChars (a - a.tdiv 10000 * 10000)).length ≤ 4 := by
    rw [hrd]
    norm_num
  have hdata := amountFormat_data a hrlen
  rw [hqd, hrd] at hdata
  have htrim : trimTrailingZeros (padLeftZeros ['0'] 4) 3 = ['0'] := by decide
  rw [htrim] at hdata
  have hstr : amountFormat a
      = ⟨(if true then ['-'] else []) ++ natToDigits k.natAbs ++ fracList (some ['0'])⟩ := by
    apply string_eq_of_data
    rw [hdata]
    simp [fracList]
  rw [hstr]
  have h63 : i64MaxNat = 9223372036854775807 := by norm_num [i64MaxNat]
  have hiv : digitsToNat (natToDigits k.natAbs) ≤ i64MaxNat := by
    rw [natToDigits_digitsToNat, h63]
    omega
  rw [amountDeserialize_eval true _ _ (natToDigits_ne_nil _) (natToDigits_all_digits _)
        (by intro f hf; cases hf; exact ⟨by decide, by norm_num⟩) hiv]
  have hgd : ((some ['0']).getD ([] : List Char)) = ['0'] := rfl
  rw [hgd]
  have hfe : (['0'] : List Char).isEmpty = false := rfl
  rw [hfe]
  simp only [Bool.false_eq_true, if_false, if_pos rfl]
  have hfv : (digitsToNat (padRightZeros ['0']) : Int) = 0 := by decide
  rw [hfv, natToDigits_digitsToNat]
  have hcast : (k.natAbs : Int) = -k := Int.ofNat_natAbs_of_nonpos (by omega)
  rw [hcast]
  have hmul : -k * 10000 = -a := by omega
  rw [hmul]
  have hbase : wrap64 (-a) = -a := by
    apply wrap64_eq_of_range <;> simp only [i64Min, i64Max] <;> omega
  rw [hbase]
  have hadd : -a + 0 = -a := by ring
  rw [hadd, hbase]
  have hma : (-1 : Int) * -a = a := by ring
  simp only [if_true]
  rw [hma]
  have hwa : wrap64 a = a := by
    apply wrap64_eq_of_range <;> simp only [i64Min, i64Max] <;> omega
  rw [hwa]

end TransactionEngineModel

namespace TransactionEngineModel

/-- C5 amended: for every representable amount that is nonnegative or a whole
multiple of the scale, format-then-parse restores the integer; and
parse-then-format-then-reparse restores the first parse whenever that parse is
such an amount (negative amounts with a nonzero fractional remainder fail, see
the counterexample). -/
theorem parse_format_roundtrips :
    (∀ a : Int, i64Min ≤ a → a ≤ i64Max → (0 ≤ a ∨ a % 10000 = 0) →
      amountDeserialize (amountFormat a) = some a) ∧
    (∀ (s : String) (a : Int), amountDeserialize s = some a →
      (0 ≤ a ∨ a % 10000 = 0) →
      amountDeserialize (amountFormat a) = some a) := by
  have main : ∀ a : Int, i64Min ≤ a → a ≤ i64Max → (0 ≤ a ∨ a % 10000 = 0) →
      amountDeserialize (amountFormat a) = some a := by
    intro a h1 h2 h3
    rcases h3 with h3 | h3
    · exact roundtrip_nonneg a h3 h2
    · rcases lt_or_ge a 0 with hneg | hge
      · exact roundtrip_neg_multiple a h1 hneg h3
      · exact roundtrip_nonneg a hge h2
  refine ⟨main, ?_⟩
  intro s a hs h3
  obtain ⟨hlo, hhi⟩ := amountDeserialize_range s a hs
  exact main a hlo hhi h3

/-- C5 witness: the roundtrip at the concrete inputs `1.2345` (scaled `12345`)
and `-2.0` (scaled `-20000`, a negative whole multiple of the scale). -/
theorem parse_format_roundtrips_witness :
    amountDeserialize (amountFormat 12345) = some 12345 ∧
    amountDeserialize (amountFormat (-20000)) = some (-20000) :=
  ⟨parse_format_roundtrips.1 12345 (by decide) (by decide) (Or.inl (by decide)),
   parse_format_roundtrips.2 "-2.0" (-20000) (by decide) (Or.inr (by decide))⟩

/-- Modelled from the spec: a string of the regular shape
`^-?\d+(\.\d{0,4})?$` — an optional minus sign, a nonempty run of digits, and
optionally a dot followed by at most four digits — with the indicated sign,
integer digits and fractional capture. -/
def SpecAmountShape (s : String) (neg : Bool) (ds : List Char)
    (fr : Option (List Char)) : Prop :=
  s.data = (if neg then ['-'] else []) ++ ds ++ fracList fr ∧
  ds ≠ [] ∧ (∀ c ∈ ds, c.isDigit = true) ∧
  (match fr with
   | none => True
   | some f => (∀ c ∈ f, c.isDigit = true) ∧ f.length ≤ 4)

theorem specShape_fr {s : String} {neg : Bool} {ds : List Char}
    {fr : Option (List Char)} (h : SpecAmountShape s neg ds fr) :
    ∀ f, fr = some f → (∀ c ∈ f, c.isDigit = true) ∧ f.length ≤ 4 := by
  intro f hf
  subst hf
  exact h.2.2.2

/-- C7: characterization of the amount parser.  It accepts exactly the empty
string together with the regex-shaped strings whose integer capture fits in
`i64`; and on a minus-signed shaped string whose integer capture and scaled
value both fit, the parse succeeds with the negated scaled value (sign applied
last). -/
theorem amount_parser_characterization (s : String) :
    ((amountDeserialize s).isSome = true ↔
      s = "" ∨ ∃ neg ds fr, SpecAmountShape s neg ds fr ∧ digitsToNat ds ≤ i64MaxNat) ∧
    (∀ (ds : List Char) (fr : Option (List Char)), SpecAmountShape s true ds fr →
      digitsToNat ds ≤ i64MaxNat →
      digitsToNat ds * 10000 + digitsToNat (padRightZeros (fr.getD [])) ≤ i64MaxNat →
      amountDeserialize s = some
        (-((digitsToNat ds * 10000 + digitsToNat (padRightZeros (fr.getD [])) : Nat) : Int))) := by
  constructor
  · constructor
    · intro h
      by_cases hemp : s.data = []
      · exact Or.inl (string_eq_of_data s [] hemp)
      · right
        rw [amountDeserialize] at h
        rw [if_neg (by simp [isEmpty_false_of_ne_nil _ hemp])] at h
        rcases hdc : decomposeAmount s.data with _ | ⟨neg, dd, fr⟩ <;> rw [hdc] at h
        · simp at h
        · dsimp only at h
          split at h
          · simp at h
          next hb =>
            obtain ⟨hcs, hne, hdd, hcond⟩ := decomposeAmount_inv s.data neg dd fr hdc
            refine ⟨neg, dd, fr, ⟨hcs, hne, hdd, ?_⟩, by omega⟩
            cases fr with
            | none => trivial
            | some f => exact hcond f rfl
    · intro h
      rcases h with rfl | ⟨neg, ds, fr, hshape, hbound⟩
      · decide
      · rw [string_eq_of_data s _ hshape.1]
        rw [amountDeserialize_eval neg ds fr hshape.2.1 hshape.2.2.1 (specShape_fr hshape)
          hbound]
        rfl
  · intro ds fr hshape hb1 hb2
    rw [string_eq_of_data s _ hshape.1]
    rw [amountDeserialize_eval true ds fr hshape.2.1 hshape.2.2.1 (specShape_fr hshape) hb1]
    have hmaxlit : i64MaxNat = 9223372036854775807 := by norm_num [i64MaxNat]
    have hXrange : wrap64 ((digitsToNat ds : Int) * 10000) = (digitsToNat ds : Int) * 10000 := by
      apply wrap64_eq_of_range <;> simp only [i64Min, i64Max] <;> push_cast <;> omega
    by_cases hfe : (fr.getD []).isEmpty = true
    · have hfrnil : fr.getD [] = [] := by
        cases hl : fr.getD [] with
        | nil => rfl
        | cons c t => rw [hl] at hfe; simp at hfe
      have hfv : digitsToNat (padRightZeros (fr.getD [])) = 0 := by
        rw [hfrnil]
        decide
      simp only [hfe, hfv, eq_self_iff_true, if_true, hXrange]
      rw [hfv] at hb2
      have hfin : wrap64 ((-1 : Int) * ((digitsToNat ds : Int) * 10000))
          = -(((digitsToNat ds * 10000 + 0 : Nat)) : Int) := by
        rw [wrap64_eq_of_range]
        · push_cast
          ring
        · simp only [i64Min]
          push_cast
          omega
        · simp only [i64Max]
          push_cast
          omega
      rw [hfin]
    · have hfeF : (fr.getD []).isEmpty = false := by
        rw [Bool.not_eq_true] at hfe
        exact hfe
      have hinner : wrap64 ((digitsToNat ds : Int) * 10000 +
            (digitsToNat (padRightZeros (fr.getD [])) : Int))
          = (digitsToNat ds : Int) * 10000 +
            (digitsToNat (padRightZeros (fr.getD [])) : Int) := by
        apply wrap64_eq_of_range <;> simp only [i64Min, i64Max] <;> push_cast <;> omega
      simp only [hfeF, Bool.false_eq_true, if_false, eq_self_iff_true, if_true, hXrange, hinner]
      have hfin : wrap64 ((-1 : Int) * ((digitsToNat ds : Int) * 10000 +
            (digitsToNat (padRightZeros (fr.getD [])) : Int)))
          = -(((digitsToNat ds * 10000 + digitsToNat (padRightZeros (fr.getD [])) : Nat)) : Int) := by
        rw [wrap64_eq_of_range]
        · push_cast
          ring
        · simp only [i64Min]
          push_cast
          omega
        · simp only [i64Max]
          push_cast
          omega
      rw [hfin]

/-- C7 counterexample: the twenty-nines string matches the spec's regular
shape, yet the parser rejects it (its integer part overflows `i64`), so the
parser does not accept exactly the regex language plus the empty string. -/
theorem regex_shape_not_sufficient :
    (∃ neg ds fr, SpecAmountShape "99999999999999999999" neg ds fr) ∧
    amountDeserialize "99999999999999999999" = none := by
  constructor
  · exact ⟨false, "99999999999999999999".data, none, by decide, by decide, by decide, trivial⟩
  · decide

/-- C7 witness: the characterization applied to the concrete string `-1.5`
(sign applied last: `-(1 * 10000 + 5000) = -15000`). -/
theorem amount_parser_characterization_witness :
    amountDeserialize "-1.5" = some (-15000) := by
  have h := (amount_parser_characterization "-1.5").2 ['1'] (some ['5'])
    ⟨by decide, by decide, by decide, by decide⟩ (by decide) (by decide)
  have hv : ((digitsToNat ['1'] * 10000 +
      digitsToNat (padRightZeros ((some ['5']).getD []))) : Nat) = 15000 := by decide
  rw [hv] at h
  simpa using h

end TransactionEngineModel
